import Mathlib

/-!
Verification of the `darksv/interpreter` virtual machine: a shallow
embedding, in Lean 4, of the assembler/loader (`src/loader.rs`) and the
call-stack executor (`src/interpreter.rs`, `src/assembly.rs`,
`src/instructions.rs`).

Machine integers are embedded as `Nat` (u8/u16/u32/usize values) and
`Int` (i32 values) with explicit range checks at exactly the points where
the Rust code checks or panics.  All fallible Rust operations — `unwrap`
on `Option`, `expect`, out-of-bounds `Vec` indexing, `unreachable!`, and
debug-mode arithmetic overflow — are embedded as `Option` (`none` = the
process panics).  Rust's `Vec<u32>` used as an operand stack (push/pop at
the back) is embedded as `List Nat` with the head as the top of the
stack.
-/

/-! ## Character and string helpers

`loader.rs` works on lines of text via `str::trim`, `str::split(' ')`,
`starts_with('.')`, `ends_with(':')` and slicing.  These are embedded as
executable functions on the character list `String.data`, so that every
concrete loader run reduces inside the kernel. -/

/-- The space character, the separator used by `line.split(' ')`. -/
def spaceChar : Char := Char.ofNat 32

/-- The dot character that introduces a directive line. -/
def dotChar : Char := Char.ofNat 46

/-- The colon character that ends a label line. -/
def colonChar : Char := Char.ofNat 58

/-- Whitespace as trimmed by `str::trim` (space, tab, LF, CR cover every
character that can occur in a line read by `BufRead::lines`). -/
def is_trim_ws (c : Char) : Bool :=
  c.toNat = 32 || c.toNat = 9 || c.toNat = 10 || c.toNat = 13

/-- `str::trim`: drop leading and trailing whitespace. -/
def trimChars (cs : List Char) : List Char :=
  ((cs.dropWhile is_trim_ws).reverse.dropWhile is_trim_ws).reverse

/-- `str::split(' ')` on a character list: split at every single space,
keeping empty pieces (Rust's `split` yields at least one piece). -/
def split_space : List Char → List Char → List (List Char)
  | [], acc => [acc.reverse]
  | c :: rest, acc =>
    if c == spaceChar then acc.reverse :: split_space rest []
    else split_space rest (c :: acc)

/-- The successive pieces `parts` of `line.split(' ')`, as strings. -/
def line_parts (line : String) : List String :=
  (split_space line.data []).map String.mk

/-- Parse a decimal digit. -/
def digit_val (c : Char) : Option Nat :=
  if 48 ≤ c.toNat ∧ c.toNat ≤ 57 then some (c.toNat - 48) else none

/-- Accumulate decimal digits left to right. -/
def parse_digits_aux (acc : Nat) : List Char → Option Nat
  | [] => some acc
  | c :: rest =>
    match digit_val c with
    | some d => parse_digits_aux (acc * 10 + d) rest
    | none => none

/-- `str::parse` for an unsigned integer type, before the range check: a
nonempty string of decimal digits.  (Rust also accepts a leading `+`,
which no claim exercises.) -/
def parse_nat (s : String) : Option Nat :=
  match s.data with
  | [] => none
  | cs => parse_digits_aux 0 cs

/-- `str::parse::<u8>`. -/
def parse_u8 (s : String) : Option Nat :=
  (parse_nat s).bind fun n => if n ≤ 255 then some n else none

/-- `str::parse::<u16>`. -/
def parse_u16 (s : String) : Option Nat :=
  (parse_nat s).bind fun n => if n ≤ 65535 then some n else none

/-- `str::parse::<u32>`. -/
def parse_u32 (s : String) : Option Nat :=
  (parse_nat s).bind fun n => if n ≤ 4294967295 then some n else none

/-- `str::parse::<usize>` (64-bit host). -/
def parse_usize (s : String) : Option Nat :=
  (parse_nat s).bind fun n => if n ≤ 18446744073709551615 then some n else none

/-- `str::parse::<bool>`: exactly `"true"` or `"false"`. -/
def parse_bool (s : String) : Option Bool :=
  if s = "true" then some true
  else if s = "false" then some false
  else none

/-! ## Instruction set (`src/instructions.rs`) -/

/-- The opcode enum `Inst` of `instructions.rs`.  The `u8`/`u16`/`u32`
operands are embedded as `Nat`; their ranges are enforced where the
loader parses them. -/
inductive Inst where
  | ldarg (n : Nat)
  | starg (n : Nat)
  | add_u
  | add_s
  | sub_u
  | sub_s
  | mul_u
  | mul_s
  | div_u
  | div_s
  | jump (t : Nat)
  | beq (t : Nat)
  | breakpoint
  | call (i : Nat)
  | ret
deriving DecidableEq, Repr

/-! ## Program model (`src/assembly.rs`) -/

/-- `ManagedFuncDef`: a bytecode function. -/
structure ManagedFuncDef where
  name : String
  args : Nat
  returns : Bool
  default_locals : List Nat
  body : List Inst
deriving DecidableEq, Repr

/-- `NativeFuncDef`: a host function, identified by name. -/
structure NativeFuncDef where
  name : String
  args : Nat
  returns : Bool
deriving DecidableEq, Repr

/-- The `FuncDef` enum of `assembly.rs`. -/
inductive FuncDef where
  | managed (m : ManagedFuncDef)
  | native (n : NativeFuncDef)
deriving DecidableEq, Repr

/-- `FuncDef::as_managed`. -/
def FuncDef.as_managed : FuncDef → Option ManagedFuncDef
  | .managed m => some m
  | .native _ => none

/-- `Assembly` of `assembly.rs`: entry index, name, function table. -/
structure Assembly where
  entry : Nat
  name : String
  functions : List FuncDef
deriving DecidableEq, Repr

/-- `Assembly::get_entry`, with the `Vec` indexing panic made explicit. -/
def Assembly.get_entry? (asm : Assembly) : Option FuncDef :=
  asm.functions.get? asm.entry

/-! ## Interpreter (`src/interpreter.rs`) -/

/-- `ManagedCallFrame`: program counter, operand stack (head = top of
stack, matching `Vec` push/pop at the back), locals. -/
structure ManagedCallFrame where
  program_counter : Nat
  stack : List Nat
  locals : List Nat
deriving DecidableEq, Repr

/-- `ManagedCallFrame::by_func`: clone the default locals, program
counter 0, empty operand stack. -/
def ManagedCallFrame.by_func (m : ManagedFuncDef) : ManagedCallFrame :=
  ⟨0, [], m.default_locals⟩

/-- The `CallFrame` enum: a managed frame keeps its function and its
runtime frame, a native frame keeps only the function identity. -/
inductive CallFrame where
  | managed (fd : ManagedFuncDef) (fr : ManagedCallFrame)
  | native (nd : NativeFuncDef)
deriving DecidableEq, Repr

/-- `ExecutionStatus` yielded by one interpreter step. -/
inductive ExecutionStatus where
  | callIdx (i : Nat)
  | ret
  | normal
  | breakpoint
deriving DecidableEq, Repr

/-- Largest u32 value. -/
def U32_MAX : Nat := 4294967295

/-- Largest i32 value. -/
def I32_MAX : Int := 2147483647

/-- Smallest i32 value. -/
def I32_MIN : Int := -2147483648

/-- `num::FromPrimitive::from_u32` instantiated at `i32`: a checked,
value-preserving conversion that succeeds only when the u32 value fits
in an `i32` (it does NOT reinterpret the bit pattern). -/
def i32_from_u32 (n : Nat) : Option Int :=
  if n ≤ 2147483647 then some (Int.ofNat n) else none

/-- `num::ToPrimitive::to_u32` instantiated at `i32`: succeeds only for
nonnegative values. -/
def i32_to_u32 (z : Int) : Option Nat :=
  if 0 ≤ z then some z.toNat else none

/-- Debug-mode i32 arithmetic: a result outside the i32 range is an
overflow panic. -/
def i32_checked (z : Int) : Option Int :=
  if I32_MIN ≤ z ∧ z ≤ I32_MAX then some z else none

/-- The closure `|a, b| a + b` at `u32` (debug-mode overflow panics). -/
def add_u32 (a b : Nat) : Option Nat :=
  if a + b ≤ U32_MAX then some (a + b) else none

/-- The closure `|a, b| a - b` at `u32` (underflow panics). -/
def sub_u32 (a b : Nat) : Option Nat :=
  if b ≤ a then some (a - b) else none

/-- The closure `|a, b| a * b` at `u32` (overflow panics). -/
def mul_u32 (a b : Nat) : Option Nat :=
  if a * b ≤ U32_MAX then some (a * b) else none

/-- The closure `|a, b| a / b` at `u32` (division by zero panics). -/
def div_u32 (a b : Nat) : Option Nat :=
  if b = 0 then none else some (a / b)

/-- The closure `|a, b| a + b` at `i32`. -/
def add_i32 (a b : Int) : Option Int := i32_checked (a + b)

/-- The closure `|a, b| a - b` at `i32`. -/
def sub_i32 (a b : Int) : Option Int := i32_checked (a - b)

/-- The closure `|a, b| a * b` at `i32`. -/
def mul_i32 (a b : Int) : Option Int := i32_checked (a * b)

/-- The closure `|a, b| a / b` at `i32`: division by zero panics, the
quotient truncates toward zero, `i32::MIN / -1` overflows. -/
def div_i32 (a b : Int) : Option Int :=
  if b = 0 then none else i32_checked (Int.tdiv a b)

/-- `interpreter.rs::binary::<u32>`: pop `value2` (top of stack, popped
first), pop `value1`, compute `operator(value2, value1)` — so the
first-popped value is the operator's left-hand argument — and push the
result.  For `u32` the `from_u32`/`to_u32` conversions are the identity,
so only the operator itself can panic. -/
def binary_u (f : Nat → Nat → Option Nat) (frame : ManagedCallFrame) :
    Option ManagedCallFrame :=
  match frame.stack with
  | v2 :: v1 :: rest =>
    match f v2 v1 with
    | some r => some { frame with stack := r :: rest }
    | none => none
  | _ => none

/-- `interpreter.rs::binary::<i32>`: pop `value2` and convert it with the
checked `from_u32` (panic if it does not fit in an i32), pop and convert
`value1`, compute `operator(value2, value1)`, convert the result back
with the checked `to_u32` (panic if negative), and push it. -/
def binary_s (f : Int → Int → Option Int) (frame : ManagedCallFrame) :
    Option ManagedCallFrame :=
  match frame.stack with
  | v2 :: v1 :: rest =>
    match i32_from_u32 v2 with
    | none => none
    | some a =>
      match i32_from_u32 v1 with
      | none => none
      | some b =>
        match f a b with
        | none => none
        | some r =>
          match i32_to_u32 r with
          | none => none
          | some u => some { frame with stack := u :: rest }
  | _ => none

/-- Advance the program counter past the current instruction. -/
def advance1 (frame : ManagedCallFrame) : ManagedCallFrame :=
  { frame with program_counter := frame.program_counter + 1 }

/-- `interpreter.rs::step_managed`: execute one instruction of a managed
frame.  A program counter at or past the end of the body yields an
implicit `Return` without touching the frame. -/
def step_managed (fn : ManagedFuncDef) (frame : ManagedCallFrame) :
    Option (ManagedCallFrame × ExecutionStatus) :=
  match fn.body.get? frame.program_counter with
  | none => some (frame, .ret)
  | some inst =>
    match inst with
    | .add_u => (binary_u add_u32 frame).map (fun fr => (advance1 fr, .normal))
    | .add_s => (binary_s add_i32 frame).map (fun fr => (advance1 fr, .normal))
    | .sub_u => (binary_u sub_u32 frame).map (fun fr => (advance1 fr, .normal))
    | .sub_s => (binary_s sub_i32 frame).map (fun fr => (advance1 fr, .normal))
    | .mul_u => (binary_u mul_u32 frame).map (fun fr => (advance1 fr, .normal))
    | .mul_s => (binary_s mul_i32 frame).map (fun fr => (advance1 fr, .normal))
    | .div_u => (binary_u div_u32 frame).map (fun fr => (advance1 fr, .normal))
    | .div_s => (binary_s div_i32 frame).map (fun fr => (advance1 fr, .normal))
    | .jump t => some ({ frame with program_counter := t }, .normal)
    | .beq t =>
      match frame.stack with
      | v2 :: v1 :: rest =>
        if v1 = v2 then some ({ frame with stack := rest, program_counter := t }, .normal)
        else some (advance1 { frame with stack := rest }, .normal)
      | _ => none
    | .ldarg n =>
      match frame.locals.get? n with
      | some v => some (advance1 { frame with stack := v :: frame.stack }, .normal)
      | none => none
    | .starg n =>
      match frame.stack with
      | v :: rest =>
        if n < frame.locals.length then
          some (advance1 { frame with stack := rest, locals := frame.locals.set n v }, .normal)
        else none
      | [] => none
    | .call i => some (advance1 frame, .callIdx i)
    | .ret => some (advance1 frame, .ret)
    | .breakpoint => some (advance1 frame, .breakpoint)

/-- The loop `for idx in 0..callee.args` of `create_frame_for_callee`:
at each iteration pop one value off the caller's stack (panic when
empty) and store it into `locals[idx]` (panic when out of range). -/
def popArgsLoop : List Nat → List Nat → Nat → Nat → Option (List Nat × List Nat)
  | locals, stack, _, 0 => some (locals, stack)
  | locals, stack, idx, Nat.succ count =>
    match stack with
    | [] => none
    | v :: rest =>
      if idx < locals.length then popArgsLoop (locals.set idx v) rest (idx + 1) count
      else none

/-- `ManagedCallFrame::create_frame_for_callee`: clone the callee's
default locals, pop one caller-stack value per argument slot, and build
the callee frame (program counter 0, empty stack).  Returns the callee
frame together with the mutated caller frame. -/
def create_frame_for_callee (caller : ManagedCallFrame) (callee : ManagedFuncDef) :
    Option (ManagedCallFrame × ManagedCallFrame) :=
  match popArgsLoop callee.default_locals caller.stack 0 callee.args with
  | none => none
  | some (locals, stack) => some (⟨0, [], locals⟩, { caller with stack := stack })

/-- `interpreter.rs::finish_managed_call`: pop-side handling of a managed
return.  When the callee returns a value, read `locals[args]` (panic
when out of range) and, if a caller frame remains, push it onto the
caller's operand stack; a `Native` caller is `unimplemented!`. -/
def finish_managed_call (call_stack : List CallFrame) (callee : ManagedFuncDef)
    (callee_frame : ManagedCallFrame) : Option (List CallFrame) :=
  if callee.returns then
    match callee_frame.locals.get? callee.args with
    | none => none
    | some result =>
      match call_stack with
      | [] => some []
      | CallFrame.managed fd fr :: rest =>
        some (CallFrame.managed fd { fr with stack := result :: fr.stack } :: rest)
      | CallFrame.native _ :: _ => none
  else some call_stack

/-- `interpreter.rs::finish_native_call`: the only known native is
`"random"`; any other name panics.  `rv` stands for the value produced
by `rand::random()`. -/
def finish_native_call (rv : Nat) (call_stack : List CallFrame)
    (callee : NativeFuncDef) : Option (List CallFrame) :=
  if callee.name = "random" then
    if callee.returns then
      match call_stack with
      | [] => some []
      | CallFrame.managed fd fr :: rest =>
        some (CallFrame.managed fd { fr with stack := rv :: fr.stack } :: rest)
      | CallFrame.native _ :: _ => none
    else some call_stack
  else none

/-- Result of a fuel-bounded run: `ok` for a value, `fault` for a panic
in the Rust code, `timeout` when the fuel bound cut the loop short. -/
inductive Outcome (α : Type) where
  | ok (a : α)
  | fault
  | timeout
deriving DecidableEq, Repr

/-- `interpreter.rs::run_managed_until_call`: step the current managed
frame until it yields a `Call` (returning the callee frame to push) or a
`Return` (returning `none` as the callee frame); `Normal` and
`Breakpoint` keep stepping — the breakpoint's diagnostic printing has no
effect on any frame.  Fuel-bounded; the loop itself has no bound. -/
def run_managed_until_call (asm : Assembly) (fd : ManagedFuncDef) :
    Nat → ManagedCallFrame → Outcome (ManagedCallFrame × Option CallFrame)
  | 0, _ => .timeout
  | fuel + 1, frame =>
    match step_managed fd frame with
    | none => .fault
    | some (frame1, status) =>
      match status with
      | .normal => run_managed_until_call asm fd fuel frame1
      | .breakpoint => run_managed_until_call asm fd fuel frame1
      | .ret => .ok (frame1, none)
      | .callIdx i =>
        match asm.functions.get? i with
        | none => .fault
        | some (.managed callee) =>
          match create_frame_for_callee frame1 callee with
          | none => .fault
          | some (calleeFrame, frame2) =>
            .ok (frame2, some (.managed callee calleeFrame))
        | some (.native nd) => .ok (frame1, some (.native nd))

/-- The `while !call_stack.is_empty()` loop of `execute_assembly`.  The
call stack is a list with the head as its top.  A managed top frame runs
until it yields: a callee frame is pushed above the (mutated) caller; a
return pops the frame and runs `finish_managed_call` against the rest.
A native top frame completes at once through `finish_native_call`.
`rnd` supplies the successive values of `rand::random()`. -/
def execute_loop (asm : Assembly) (rnd : Nat → Nat) :
    Nat → Nat → List CallFrame → Outcome Unit
  | _, _, [] => .ok ()
  | 0, _, _ :: _ => .timeout
  | fuel + 1, rix, top :: rest =>
    match top with
    | .managed fd frame =>
      match run_managed_until_call asm fd (fuel + 1) frame with
      | .fault => .fault
      | .timeout => .timeout
      | .ok (frame1, some calleeFrame) =>
        execute_loop asm rnd fuel rix (calleeFrame :: .managed fd frame1 :: rest)
      | .ok (frame1, none) =>
        match finish_managed_call rest fd frame1 with
        | none => .fault
        | some stk => execute_loop asm rnd fuel rix stk
    | .native nd =>
      match finish_native_call (rnd rix % (U32_MAX + 1)) rest nd with
      | none => .fault
      | some stk => execute_loop asm rnd fuel (rix + 1) stk

/-- `interpreter.rs::execute_assembly`: extract the entry function —
`get_entry` panics on an out-of-range entry index, `as_managed().unwrap()`
panics when the entry function is `Native` — build the single initial
managed frame with `ManagedCallFrame::by_func`, and run the loop. -/
def execute_assembly (asm : Assembly) (rnd : Nat → Nat) (fuel : Nat) : Outcome Unit :=
  match asm.get_entry? with
  | none => .fault
  | some fd =>
    match fd.as_managed with
    | none => .fault
    | some m => execute_loop asm rnd fuel 0 [CallFrame.managed m (ManagedCallFrame.by_func m)]

/-! ## Loader (`src/loader.rs`)

`loader.rs` constructs its functions as records with fields
`{name, args, returns, body, default_locals}` — the shape of
`ManagedFuncDef` — so the loader's function table is embedded as
`List ManagedFuncDef`.  The `HashMap<String, usize>` of label offsets is
embedded as an association list where an insert shadows older entries
and a lookup takes the most recent one, observationally the map's
insert-replace behavior. -/

/-- `Iterator::position`: index of the first element satisfying `p`. -/
def position (p : α → Bool) : List α → Option Nat
  | [] => none
  | a :: rest => if p a then some 0 else (position p rest).map (· + 1)

/-- `loader.rs::get_index_for`: index of `v` in `set`, appending it
first when absent.  Returns the index and the updated list. -/
def get_index_for (set : List String) (v : String) : Nat × List String :=
  match position (fun x => x == v) set with
  | some idx => (idx, set)
  | none => (set.length, set ++ [v])

/-- `HashMap::insert` of every pending label at one body position. -/
def insert_all (m : List (String × Nat)) (ks : List String) (pos : Nat) :
    List (String × Nat) :=
  ks.foldl (fun acc k => (k, pos) :: acc) m

/-- `HashMap` lookup: the most recently inserted binding of `k`. -/
def lookup_offset (m : List (String × Nat)) (k : String) : Option Nat :=
  match m.find? (fun p => p.1 == k) with
  | some p => some p.2
  | none => none

/-- The `Loader` struct: function table, pending labels, label-offset
map, per-function label placeholder list, in-progress function, and the
program-global list of called names. -/
structure Loader where
  functions : List ManagedFuncDef
  pending_labels : List String
  label_offsets : List (String × Nat)
  labels : List String
  current_func : Option ManagedFuncDef
  called_names : List String
deriving DecidableEq, Repr

/-- `Loader::new`. -/
def Loader.new : Loader := ⟨[], [], [], [], none, []⟩

/-- A loop that maps `f` over a list and propagates the first `none`:
the embedding of Rust loops that transform every element but panic (or
error) on the first failure. -/
def optionMapList (f : α → Option β) : List α → Option (List β)
  | [] => some []
  | a :: rest =>
    match f a with
    | none => none
    | some b => (optionMapList f rest).map (b :: ·)

/-- The per-instruction work of `fill_branching_placeholders`: a
`jump`/`beq` placeholder index selects a label name (`Vec` indexing
panic if out of range) whose absolute offset is looked up in the
label-offset map (`HashMap` `Index` panic — an unresolved label — if
absent); other instructions pass through unchanged. -/
def resolve_branch (labels : List String) (offsets : List (String × Nat)) :
    Inst → Option Inst
  | .jump i =>
    match labels.get? i with
    | none => none
    | some lab => (lookup_offset offsets lab).map Inst.jump
  | .beq i =>
    match labels.get? i with
    | none => none
    | some lab => (lookup_offset offsets lab).map Inst.beq
  | inst => some inst

/-- `args + if returns { 1 } else { 0 }`: the minimum number of local
slots of a function (argument slots plus the return slot). -/
def locals_min (f : ManagedFuncDef) : Nat :=
  f.args + (if f.returns then 1 else 0)

/-- `loader.rs::save_func`: when a function is in progress, bind its
pending labels to the end-of-body position, resolve its `jump`/`beq`
placeholders, compute the minimum locals size as u16 arithmetic
(debug-mode overflow panics), grow `default_locals` to that minimum with
zero fill when it is smaller, and append the function to the table. -/
def save_func (ld : Loader) : Option Loader :=
  match ld.current_func with
  | none => some ld
  | some f =>
    let offsets := insert_all ld.label_offsets ld.pending_labels f.body.length
    match optionMapList (resolve_branch ld.labels offsets) f.body with
    | none => none
    | some body1 =>
      let minL := locals_min f
      if 65535 < minL then none
      else
        let dl :=
          if f.default_locals.length < minL then
            f.default_locals ++ List.replicate (minL - f.default_locals.length) 0
          else f.default_locals
        some { ld with
                functions := ld.functions ++ [{ f with body := body1, default_locals := dl }],
                pending_labels := [],
                label_offsets := offsets,
                current_func := none }

/-- `loader.rs::process_meta`: handle one directive line (the text after
the leading dot).  `func` finalizes the previous function and opens a new
one; `locals` and `local` size and seed the default locals of the current
function; any other directive name is only reported on stderr and the
loader state is left unchanged. -/
def process_meta (ld : Loader) (line : String) : Option Loader :=
  match line_parts line with
  | [] => none
  | w :: rest =>
    if w = "func" then
      match save_func ld with
      | none => none
      | some ld1 =>
        match rest.get? 0 with
        | none => none
        | some nm =>
          match (rest.get? 1).bind parse_u16 with
          | none => none
          | some args =>
            match (rest.get? 2).bind parse_bool with
            | none => none
            | some rv =>
              some { ld1 with
                      current_func := some ⟨nm, args, rv, [], []⟩,
                      pending_labels := [],
                      labels := [],
                      label_offsets := [] }
    else if w = "locals" then
      match ld.current_func with
      | none => some ld
      | some f =>
        match (rest.get? 0).bind parse_usize with
        | none => none
        | some count =>
          some { ld with current_func := some { f with default_locals := List.replicate count 0 } }
    else if w = "local" then
      match (rest.get? 0).bind parse_u16 with
      | none => none
      | some idx =>
        match (rest.get? 1).bind parse_u32 with
        | none => none
        | some v =>
          match ld.current_func with
          | none => some ld
          | some f =>
            if idx < f.default_locals.length then
              some { ld with current_func := some { f with default_locals := f.default_locals.set idx v } }
            else none
    else some ld

/-- `loader.rs::parse_label`: record a pending label. -/
def parse_label (ld : Loader) (lab : String) : Loader :=
  { ld with pending_labels := ld.pending_labels ++ [lab] }

/-- The `let op = match parts.next() ...` block of
`loader.rs::parse_instruction`: decode the mnemonic — `jump`/`beq` and
`call` store a placeholder index into the label list and the
called-names list respectively (via `get_index_for`), `ldarg`/`starg`
parse a `u8` operand, and a mnemonic that matches no arm is
`unreachable!`.  Returns the instruction together with the loader state,
whose `labels`/`called_names` lists the block may have extended. -/
def decode_mnemonic (ld : Loader) (w : String) (rest : List String) :
    Option (Inst × Loader) :=
  if w = "ldarg" then ((rest.get? 0).bind parse_u8).map (fun n => (.ldarg n, ld))
  else if w = "starg" then ((rest.get? 0).bind parse_u8).map (fun n => (.starg n, ld))
  else if w = "jump" then
    (rest.get? 0).map (fun lab =>
      let p := get_index_for ld.labels lab
      (.jump p.1, { ld with labels := p.2 }))
  else if w = "beq" then
    (rest.get? 0).map (fun lab =>
      let p := get_index_for ld.labels lab
      (.beq p.1, { ld with labels := p.2 }))
  else if w = "add.u" then some (.add_u, ld)
  else if w = "add.s" then some (.add_s, ld)
  else if w = "sub.u" then some (.sub_u, ld)
  else if w = "sub.s" then some (.sub_s, ld)
  else if w = "breakpoint" then some (.breakpoint, ld)
  else if w = "call" then
    (rest.get? 0).map (fun nm =>
      let p := get_index_for ld.called_names nm
      (.call p.1, { ld with called_names := p.2 }))
  else if w = "ret" then some (.ret, ld)
  else none

/-- `loader.rs::parse_instruction`: decode the mnemonic with
`decode_mnemonic`, then bind the pending labels to the current body
position (`current_func.as_ref().unwrap()` panics when no function is in
progress) and append the instruction to the body. -/
def parse_instruction (ld : Loader) (line : String) : Option Loader :=
  match line_parts line with
  | [] => none
  | w :: rest =>
    match decode_mnemonic ld w rest with
    | none => none
    | some (op, ld1) =>
      match ld1.current_func with
      | none => none
      | some f =>
        some { ld1 with
                pending_labels := [],
                label_offsets := insert_all ld1.label_offsets ld1.pending_labels f.body.length,
                current_func := some { f with body := f.body ++ [op] } }

/-- `loader.rs::get_real_func_index`: look up the callee name stored for
a `call` placeholder (`Vec` indexing panic if out of range) and find the
position of the first function with that name (`expect("no such func")`
panics when there is none). -/
def get_real_func_index (functions : List ManagedFuncDef) (called_names : List String)
    (fake_idx : Nat) : Option Nat :=
  match called_names.get? fake_idx with
  | none => none
  | some nm => position (fun f => f.name == nm) functions

/-- Resolution of one instruction by `fill_call_placeholders`: only
`call` placeholders change. -/
def resolve_call_inst (functions : List ManagedFuncDef) (called_names : List String) :
    Inst → Option Inst
  | .call i => (get_real_func_index functions called_names i).map Inst.call
  | inst => some inst

/-- `loader.rs::fill_call_placeholders`: rewrite every `call` placeholder
in every body to the resolved function-table index.  The Rust code first
collects every change while reading the table and then applies them;
since the changes only replace `call` operands and the resolution reads
only function names, this equals a single resolving pass. -/
def fill_call_placeholders (functions : List ManagedFuncDef)
    (called_names : List String) : Option (List ManagedFuncDef) :=
  optionMapList
    (fun f => (optionMapList (resolve_call_inst functions called_names) f.body).map
      (fun b => { f with body := b }))
    functions

/-- The per-line dispatch of `Loader::load`: trim the line, skip it when
empty, a leading dot is a directive, a trailing colon is a label, and
anything else is an instruction. -/
def process_line (ld : Loader) (raw : String) : Option Loader :=
  match trimChars raw.data with
  | [] => some ld
  | c :: cs =>
    if c == dotChar then process_meta ld (String.mk cs)
    else if (c :: cs).getLast? = some colonChar then
      some (parse_label ld (String.mk (c :: cs).dropLast))
    else parse_instruction ld (String.mk (c :: cs))

/-- The line loop of `Loader::load`. -/
def load_lines : Loader → List String → Option Loader
  | ld, [] => some ld
  | ld, l :: ls =>
    match process_line ld l with
    | none => none
    | some ld1 => load_lines ld1 ls

/-- `Loader::load` on the lines of a source file: run every line,
finalize the last function, and resolve the call placeholders, yielding
the function table of the produced assembly. -/
def load_program (lines : List String) : Option (List ManagedFuncDef) :=
  match load_lines Loader.new lines with
  | none => none
  | some ld =>
    match save_func ld with
    | none => none
    | some ld1 => fill_call_placeholders ld1.functions ld1.called_names

/-! ## Helper lemmas -/

/-- `optionMapList` succeeds exactly by succeeding on every element. -/
theorem optionMapList_isSome {α β : Type} (f : α → Option β) :
    ∀ l : List α, (∀ a ∈ l, (f a).isSome) → ∃ l', optionMapList f l = some l' := by
  intro l
  induction l with
  | nil => intro _; exact ⟨[], rfl⟩
  | cons a rest ih =>
    intro h
    have ha := h a (by simp)
    cases hfa : f a with
    | none => rw [hfa] at ha; simp at ha
    | some b =>
      obtain ⟨rest', hrest⟩ := ih (fun x hx => h x (by simp [hx]))
      exact ⟨b :: rest', by simp [optionMapList, hfa, hrest]⟩

/-- A failing element makes `optionMapList` fail. -/
theorem optionMapList_none {α β : Type} (f : α → Option β) :
    ∀ (l : List α) (a : α), a ∈ l → f a = none → optionMapList f l = none := by
  intro l
  induction l with
  | nil => intro a ha _; simp at ha
  | cons b rest ih =>
    intro a ha hfa
    rcases List.mem_cons.mp ha with h | h
    · subst h; simp [optionMapList, hfa]
    · simp only [optionMapList]
      cases hfb : f b with
      | none => rfl
      | some c => rw [ih a h hfa]; rfl

/-- Pointwise description of a successful `optionMapList`. -/
theorem optionMapList_get? {α β : Type} (f : α → Option β) :
    ∀ (l : List α) (l' : List β), optionMapList f l = some l' →
    ∀ k, l'.get? k = (l.get? k).bind f := by
  intro l
  induction l with
  | nil =>
    intro l' h k
    simp only [optionMapList, Option.some.injEq] at h
    subst h
    simp
  | cons a rest ih =>
    intro l' h k
    simp only [optionMapList] at h
    cases hfa : f a with
    | none => rw [hfa] at h; simp at h
    | some b =>
      rw [hfa] at h
      cases hrest : optionMapList f rest with
      | none => rw [hrest] at h; simp at h
      | some rest' =>
        rw [hrest] at h
        simp only [Option.map_some', Option.some.injEq] at h
        subst h
        cases k with
        | zero => simp [hfa]
        | succ k => simpa using ih rest' hrest k

/-- `optionMapList` preserves the length. -/
theorem optionMapList_length {α β : Type} (f : α → Option β) :
    ∀ (l : List α) (l' : List β), optionMapList f l = some l' →
    l'.length = l.length := by
  intro l
  induction l with
  | nil => intro l' h; simp only [optionMapList, Option.some.injEq] at h; subst h; rfl
  | cons a rest ih =>
    intro l' h
    simp only [optionMapList] at h
    cases hfa : f a with
    | none => rw [hfa] at h; simp at h
    | some b =>
      rw [hfa] at h
      cases hrest : optionMapList f rest with
      | none => rw [hrest] at h; simp at h
      | some rest' =>
        rw [hrest] at h
        simp only [Option.map_some', Option.some.injEq] at h
        subst h
        simp [ih rest' hrest]

/-- An index found by `position` carries an element satisfying the
predicate. -/
theorem position_spec {α : Type} (p : α → Bool) :
    ∀ (l : List α) (j : Nat), position p l = some j →
    ∃ a, l.get? j = some a ∧ p a = true := by
  intro l
  induction l with
  | nil => intro j h; simp [position] at h
  | cons a rest ih =>
    intro j h
    simp only [position] at h
    by_cases hp : p a = true
    · rw [if_pos hp] at h
      cases h
      exact ⟨a, rfl, hp⟩
    · rw [if_neg hp] at h
      cases hr : position p rest with
      | none => rw [hr] at h; simp at h
      | some m =>
        rw [hr] at h
        simp only [Option.map_some', Option.some.injEq] at h
        subst h
        obtain ⟨b, hb, hpb⟩ := ih m hr
        exact ⟨b, by simpa using hb, hpb⟩

/-- Full description of the argument-popping loop of
`create_frame_for_callee`: it pops exactly `count` values, writing the
`j`-th popped value into slot `idx + j` and leaving every other slot
untouched. -/
theorem popArgsLoop_spec :
    ∀ (count idx : Nat) (locals stack : List Nat),
    idx + count ≤ locals.length → count ≤ stack.length →
    ∃ locals1,
      popArgsLoop locals stack idx count = some (locals1, stack.drop count) ∧
      locals1.length = locals.length ∧
      (∀ j, j < idx → locals1.get? j = locals.get? j) ∧
      (∀ j, j < count → locals1.get? (idx + j) = stack.get? j) ∧
      (∀ j, idx + count ≤ j → locals1.get? j = locals.get? j) := by
  intro count
  induction count with
  | zero =>
    intro idx locals stack _ _
    exact ⟨locals, by simp [popArgsLoop], rfl, fun _ _ => rfl,
      fun j hj => absurd hj (Nat.not_lt_zero j), fun _ _ => rfl⟩
  | succ count ih =>
    intro idx locals stack h1 h2
    cases stack with
    | nil => simp at h2
    | cons v rest =>
      have hidx : idx < locals.length := by omega
      have hlen2 : count ≤ rest.length := by simp at h2; omega
      have hlen1 : idx + 1 + count ≤ (locals.set idx v).length := by simp; omega
      obtain ⟨locals1, heq, hlen, hlt, hmid, hge⟩ := ih (idx + 1) (locals.set idx v) rest hlen1 hlen2
      refine ⟨locals1, ?_, ?_, ?_, ?_, ?_⟩
      · simp only [popArgsLoop]
        rw [if_pos hidx]
        exact heq
      · simpa using hlen
      · intro j hj
        rw [hlt j (by omega), List.get?_set_ne _ _ (by omega)]
      · intro j hj
        cases j with
        | zero =>
          have := hlt idx (by omega)
          rw [Nat.add_zero]
          rw [this]
          simpa [List.get?_set_eq] using by simp [List.get?_eq_getElem?, hidx]
        | succ j =>
          have : idx + (j + 1) = idx + 1 + j := by omega
          rw [this, hmid j (by omega)]
          rfl
      · intro j hj
        rw [hge j (by omega), List.get?_set_ne _ _ (by omega)]

/-- Full description of a successful `save_func` on an in-progress
function: the function is appended with its `default_locals` grown (if
needed) to the argument/return minimum, existing slots kept and added
slots zero. -/
theorem save_func_spec (ld : Loader) (f : ManagedFuncDef) (ld1 : Loader)
    (hc : ld.current_func = some f) (hs : save_func ld = some ld1) :
    ∃ g : ManagedFuncDef,
      ld1.functions = ld.functions ++ [g] ∧
      g.name = f.name ∧ g.args = f.args ∧ g.returns = f.returns ∧
      locals_min g ≤ g.default_locals.length ∧
      g.default_locals.length = max f.default_locals.length (locals_min f) ∧
      (∀ k, k < f.default_locals.length →
        g.default_locals.get? k = f.default_locals.get? k) ∧
      (∀ k, f.default_locals.length ≤ k → k < g.default_locals.length →
        g.default_locals.get? k = some 0) ∧
      ld1.current_func = none ∧ ld1.called_names = ld.called_names ∧
      ld1.labels = ld.labels := by
  simp only [save_func, hc] at hs
  cases hb : optionMapList (resolve_branch ld.labels
      (insert_all ld.label_offsets ld.pending_labels f.body.length)) f.body with
  | none => rw [hb] at hs; simp at hs
  | some body1 =>
    rw [hb] at hs
    dsimp only [] at hs
    by_cases hov : 65535 < locals_min f
    · rw [if_pos hov] at hs; simp at hs
    · rw [if_neg hov] at hs
      simp only [Option.some.injEq] at hs
      subst hs
      by_cases hgrow : f.default_locals.length < locals_min f
      · rw [if_pos hgrow]
        refine ⟨_, rfl, rfl, rfl, rfl, ?_, ?_, ?_, ?_, rfl, rfl, rfl⟩
        · show locals_min _ ≤ _
          simp only [locals_min, List.length_append, List.length_replicate]
          omega
        · simp only [List.length_append, List.length_replicate, locals_min]
          simp only [locals_min] at hgrow
          omega
        · intro k hk
          exact List.get?_append hk
        · intro k hk1 hk2
          rw [List.get?_append_right hk1]
          simp only [List.length_append, List.length_replicate] at hk2
          simp [List.get?_eq_getElem?, List.getElem?_replicate]
          omega
      · rw [if_neg hgrow]
        refine ⟨_, rfl, rfl, rfl, rfl, ?_, ?_, ?_, ?_, rfl, rfl, rfl⟩
        · show locals_min _ ≤ _
          simp only [locals_min] at hgrow ⊢
          omega
        · simp only [locals_min] at hgrow ⊢
          omega
        · intro _ _; rfl
        · intro k hk1 hk2
          simp only [] at hk2
          omega

/-- `save_func` with no function in progress changes nothing. -/
theorem save_func_none (ld : Loader) (hc : ld.current_func = none) :
    save_func ld = some ld := by
  unfold save_func
  rw [hc]

/-- Every function in a loader table satisfies the locals-sizing
invariant. -/
def inv_all (fns : List ManagedFuncDef) : Prop :=
  ∀ g ∈ fns, locals_min g ≤ g.default_locals.length

/-- `save_func` preserves (and, for the appended function, establishes)
the locals-sizing invariant. -/
theorem save_func_inv (ld ld1 : Loader) (hs : save_func ld = some ld1)
    (h : inv_all ld.functions) : inv_all ld1.functions := by
  cases hc : ld.current_func with
  | none =>
    have := save_func_none ld hc
    rw [this] at hs
    cases hs
    exact h
  | some f =>
    obtain ⟨g, hfns, -, -, -, hg, -, -, -, -, -, -⟩ := save_func_spec ld f ld1 hc hs
    rw [hfns]
    intro x hx
    rcases List.mem_append.mp hx with hx | hx
    · exact h x hx
    · rcases List.mem_singleton.mp hx with rfl
      exact hg


set_option maxHeartbeats 1000000 in
/-- `decode_mnemonic` never touches the function table, the in-progress
function, the pending labels, or the label-offset map. -/
theorem decode_mnemonic_state (ld : Loader) (w : String) (rest : List String)
    (op : Inst) (ld2 : Loader) (h : decode_mnemonic ld w rest = some (op, ld2)) :
    ld2.functions = ld.functions ∧ ld2.current_func = ld.current_func ∧
    ld2.pending_labels = ld.pending_labels ∧ ld2.label_offsets = ld.label_offsets := by
  unfold decode_mnemonic at h
  by_cases h1 : w = "ldarg"
  · simp only [if_pos h1] at h
    cases hn : (rest.get? 0).bind parse_u8 with
    | none => rw [hn] at h; simp at h
    | some n =>
      simp only [hn, Option.map_some', Option.some.injEq, Prod.mk.injEq] at h
      obtain ⟨-, rfl⟩ := h
      exact ⟨rfl, rfl, rfl, rfl⟩
  · simp only [if_neg h1] at h
    by_cases h2 : w = "starg"
    · simp only [if_pos h2] at h
      cases hn : (rest.get? 0).bind parse_u8 with
      | none => rw [hn] at h; simp at h
      | some n =>
        simp only [hn, Option.map_some', Option.some.injEq, Prod.mk.injEq] at h
        obtain ⟨-, rfl⟩ := h
        exact ⟨rfl, rfl, rfl, rfl⟩
    · simp only [if_neg h2] at h
      by_cases h3 : w = "jump"
      · simp only [if_pos h3] at h
        cases hn : rest.get? 0 with
        | none => rw [hn] at h; simp at h
        | some lab =>
          simp only [hn, Option.map_some', Option.some.injEq, Prod.mk.injEq] at h
          obtain ⟨-, rfl⟩ := h
          exact ⟨rfl, rfl, rfl, rfl⟩
      · simp only [if_neg h3] at h
        by_cases h4 : w = "beq"
        · simp only [if_pos h4] at h
          cases hn : rest.get? 0 with
          | none => rw [hn] at h; simp at h
          | some lab =>
            simp only [hn, Option.map_some', Option.some.injEq, Prod.mk.injEq] at h
            obtain ⟨-, rfl⟩ := h
            exact ⟨rfl, rfl, rfl, rfl⟩
        · simp only [if_neg h4] at h
          by_cases h5 : w = "add.u"
          · simp only [if_pos h5, Option.some.injEq, Prod.mk.injEq] at h
            obtain ⟨-, rfl⟩ := h
            exact ⟨rfl, rfl, rfl, rfl⟩
          · simp only [if_neg h5] at h
            by_cases h6 : w = "add.s"
            · simp only [if_pos h6, Option.some.injEq, Prod.mk.injEq] at h
              obtain ⟨-, rfl⟩ := h
              exact ⟨rfl, rfl, rfl, rfl⟩
            · simp only [if_neg h6] at h
              by_cases h7 : w = "sub.u"
              · simp only [if_pos h7, Option.some.injEq, Prod.mk.injEq] at h
                obtain ⟨-, rfl⟩ := h
                exact ⟨rfl, rfl, rfl, rfl⟩
              · simp only [if_neg h7] at h
                by_cases h8 : w = "sub.s"
                · simp only [if_pos h8, Option.some.injEq, Prod.mk.injEq] at h
                  obtain ⟨-, rfl⟩ := h
                  exact ⟨rfl, rfl, rfl, rfl⟩
                · simp only [if_neg h8] at h
                  by_cases h9 : w = "breakpoint"
                  · simp only [if_pos h9, Option.some.injEq, Prod.mk.injEq] at h
                    obtain ⟨-, rfl⟩ := h
                    exact ⟨rfl, rfl, rfl, rfl⟩
                  · simp only [if_neg h9] at h
                    by_cases h10 : w = "call"
                    · simp only [if_pos h10] at h
                      cases hn : rest.get? 0 with
                      | none => rw [hn] at h; simp at h
                      | some nm =>
                        simp only [hn, Option.map_some', Option.some.injEq,
                          Prod.mk.injEq] at h
                        obtain ⟨-, rfl⟩ := h
                        exact ⟨rfl, rfl, rfl, rfl⟩
                    · simp only [if_neg h10] at h
                      by_cases h11 : w = "ret"
                      · simp only [if_pos h11, Option.some.injEq, Prod.mk.injEq] at h
                        obtain ⟨-, rfl⟩ := h
                        exact ⟨rfl, rfl, rfl, rfl⟩
                      · simp only [if_neg h11] at h
                        exact absurd h (by simp)

/-- `parse_instruction` never changes the function table. -/
theorem parse_instruction_functions (ld : Loader) (line : String) (ld1 : Loader)
    (h : parse_instruction ld line = some ld1) : ld1.functions = ld.functions := by
  unfold parse_instruction at h
  cases hlp : line_parts line with
  | nil => rw [hlp] at h; simp at h
  | cons w rest =>
    rw [hlp] at h
    simp only [] at h
    cases hd : decode_mnemonic ld w rest with
    | none => simp [hd] at h
    | some p =>
      obtain ⟨op, ld2⟩ := p
      simp only [hd] at h
      cases hc : ld2.current_func with
      | none => simp [hc] at h
      | some f =>
        simp only [hc, Option.some.injEq] at h
        subst h
        exact (decode_mnemonic_state ld w rest op ld2 hd).1

/-- `process_meta` preserves the locals-sizing invariant of the
function table. -/
theorem process_meta_inv (ld : Loader) (line : String) (ld1 : Loader)
    (h : process_meta ld line = some ld1) (hi : inv_all ld.functions) :
    inv_all ld1.functions := by
  unfold process_meta at h
  cases hlp : line_parts line with
  | nil => rw [hlp] at h; simp at h
  | cons w rest =>
    rw [hlp] at h
    simp only [] at h
    by_cases hw : w = "func"
    · simp only [if_pos hw] at h
      cases hsf : save_func ld with
      | none => simp [hsf] at h
      | some ld2 =>
        simp only [hsf] at h
        have hi2 := save_func_inv ld ld2 hsf hi
        cases h0 : rest.get? 0 with
        | none => rw [h0] at h; simp at h
        | some nm =>
          simp only [h0] at h
          cases h1 : (rest.get? 1).bind parse_u16 with
          | none => rw [h1] at h; simp at h
          | some args =>
            simp only [h1] at h
            cases h2 : (rest.get? 2).bind parse_bool with
            | none => rw [h2] at h; simp at h
            | some rv =>
              simp only [h2, Option.some.injEq] at h
              subst h
              exact hi2
    · simp only [if_neg hw] at h
      by_cases hw2 : w = "locals"
      · simp only [if_pos hw2] at h
        cases hc : ld.current_func with
        | none =>
          simp only [hc, Option.some.injEq] at h
          subst h
          exact hi
        | some f =>
          simp only [hc] at h
          cases hcount : (rest.get? 0).bind parse_usize with
          | none => rw [hcount] at h; simp at h
          | some count =>
            simp only [hcount, Option.some.injEq] at h
            subst h
            exact hi
      · simp only [if_neg hw2] at h
        by_cases hw3 : w = "local"
        · simp only [if_pos hw3] at h
          cases h0 : (rest.get? 0).bind parse_u16 with
          | none => rw [h0] at h; simp at h
          | some idx =>
            simp only [h0] at h
            cases h1 : (rest.get? 1).bind parse_u32 with
            | none => rw [h1] at h; simp at h
            | some v =>
              simp only [h1] at h
              cases hc : ld.current_func with
              | none =>
                simp only [hc, Option.some.injEq] at h
                subst h
                exact hi
              | some f =>
                simp only [hc] at h
                by_cases hr : idx < f.default_locals.length
                · simp only [if_pos hr, Option.some.injEq] at h
                  subst h
                  exact hi
                · simp [if_neg hr] at h
        · simp only [if_neg hw3, Option.some.injEq] at h
          subst h
          exact hi

/-- One line of `Loader::load` preserves the locals-sizing invariant. -/
theorem process_line_inv (ld : Loader) (raw : String) (ld1 : Loader)
    (h : process_line ld raw = some ld1) (hi : inv_all ld.functions) :
    inv_all ld1.functions := by
  unfold process_line at h
  cases ht : trimChars raw.data with
  | nil =>
    rw [ht] at h
    simp only [Option.some.injEq] at h
    subst h
    exact hi
  | cons c cs =>
    rw [ht] at h
    simp only [] at h
    by_cases hdot : (c == dotChar) = true
    · simp only [if_pos hdot] at h
      exact process_meta_inv _ _ _ h hi
    · simp only [if_neg hdot] at h
      by_cases hcolon : (c :: cs).getLast? = some colonChar
      · simp only [if_pos hcolon, Option.some.injEq] at h
        subst h
        exact hi
      · simp only [if_neg hcolon] at h
        have := parse_instruction_functions _ _ _ h
        rw [this]
        exact hi

/-- The line loop of `Loader::load` preserves the invariant. -/
theorem load_lines_inv :
    ∀ (lines : List String) (ld ld1 : Loader),
    load_lines ld lines = some ld1 → inv_all ld.functions → inv_all ld1.functions := by
  intro lines
  induction lines with
  | nil =>
    intro ld ld1 h hi
    cases h
    exact hi
  | cons l ls ih =>
    intro ld ld1 h hi
    unfold load_lines at h
    cases hp : process_line ld l with
    | none => rw [hp] at h; simp at h
    | some ld2 =>
      rw [hp] at h
      exact ih ld2 ld1 h (process_line_inv ld l ld2 hp hi)

/-- Every function produced by `fill_call_placeholders` keeps the name,
signature and default locals of a function of the input table. -/
theorem fill_call_mem (fns : List ManagedFuncDef) (names : List String)
    (out : List ManagedFuncDef) (h : fill_call_placeholders fns names = some out) :
    ∀ g ∈ out, ∃ f ∈ fns, g.name = f.name ∧ g.args = f.args ∧
      g.returns = f.returns ∧ g.default_locals = f.default_locals := by
  intro g hg
  obtain ⟨k, hk⟩ := List.mem_iff_get?.mp hg
  have hpt := optionMapList_get? _ fns out h k
  rw [hk] at hpt
  cases hf : fns.get? k with
  | none => rw [hf] at hpt; simp at hpt
  | some f =>
    rw [hf] at hpt
    cases hb : optionMapList (resolve_call_inst fns names) f.body with
    | none => simp [hb] at hpt
    | some b =>
      simp only [hb, Option.some_bind, Option.map_some', Option.some.injEq] at hpt
      subst hpt
      exact ⟨f, List.get?_mem hf, rfl, rfl, rfl, rfl⟩

/-! ## Claims -/

/-- C2: the claim states that signed binary operations reinterpret the
u32 bit pattern as i32 (so `add.s` on `0xFFFFFFFF` and `5` pushes `4`).
The code instead converts with the checked `num::FromPrimitive::from_u32`,
which returns `None` for any operand above `i32::MAX`; the `unwrap`
panics, so `add.s` on the operand `0xFFFFFFFF` faults instead of pushing
`4`: evaluating the embedded step at exactly that input yields `none`
(a panic), refuting the bitwise-reinterpretation behavior. -/
theorem c2_signed_reinterpretation_fault :
    step_managed ⟨"f", 0, false, [], [Inst.add_s]⟩ ⟨0, [4294967295, 5], []⟩ = none := by
  decide

/-- C3: the claim states that the loader accepts all eight arithmetic
mnemonics of the grammar.  The `parse_instruction` match in `loader.rs`
has arms only for `add.u`, `add.s`, `sub.u`, `sub.s`; the four `mul`/`div`
mnemonics — whose opcodes exist in `Inst` and are executed by the
interpreter — fall into the `unreachable!` arm and panic, embedded as
`none`, whatever the loader state. -/
theorem c3_mul_div_mnemonics_rejected :
    ∀ ld : Loader,
      parse_instruction ld "mul.u" = none ∧ parse_instruction ld "mul.s" = none ∧
      parse_instruction ld "div.u" = none ∧ parse_instruction ld "div.s" = none :=
  fun _ => ⟨rfl, rfl, rfl, rfl⟩

/-- C5 counterexample: a source file containing the unknown directive
`.bogus 1` loads successfully and produces a program — the loader does
not abort, refuting the claim that an unknown directive is a fatal
`LoadError`. -/
theorem c5_counterexample_unknown_directive_loads :
    load_program [".func main 0 false", ".bogus 1", "ret"] =
      some [⟨"main", 0, false, [], [Inst.ret]⟩] := by
  decide

/-- C5 amended: a directive whose name is not `func`, `locals` or
`local` is ignored — `process_meta` only prints a diagnostic and returns
the loader state unchanged, and loading continues. -/
theorem c5_unknown_directive_ignored :
    ∀ (ld : Loader) (line w : String) (rest : List String),
      line_parts line = w :: rest →
      w ≠ "func" → w ≠ "locals" → w ≠ "local" →
      process_meta ld line = some ld := by
  intro ld line w rest hlp hw1 hw2 hw3
  unfold process_meta
  rw [hlp]
  simp only []
  rw [if_neg hw1, if_neg hw2, if_neg hw3]

/-- Witness for C5's amended theorem at the concrete directive line
`bogus 1` (the text after the dot of `.bogus 1`). -/
theorem c5_witness :
    process_meta Loader.new "bogus 1" = some Loader.new :=
  c5_unknown_directive_ignored Loader.new "bogus 1" "bogus" ["1"]
    (by decide) (by decide) (by decide) (by decide)

/-- C9: executing `Breakpoint` advances the program counter by exactly
one, leaves the operand stack and the locals unchanged, and yields the
`Breakpoint` status; inside `run_managed_until_call` that status only
prints a diagnostic (no state effect) and the loop resumes at the
following instruction, so the run continues exactly as the run started
from the advanced frame — breakpoints never transfer control and do not
change the final stack, locals or return value. -/
theorem c9_breakpoint_transparent :
    (∀ (fn : ManagedFuncDef) (frame : ManagedCallFrame),
      fn.body.get? frame.program_counter = some Inst.breakpoint →
      step_managed fn frame =
        some ({ frame with program_counter := frame.program_counter + 1 },
          ExecutionStatus.breakpoint))
    ∧
    (∀ (asm : Assembly) (fn : ManagedFuncDef) (fuel : Nat) (frame : ManagedCallFrame),
      fn.body.get? frame.program_counter = some Inst.breakpoint →
      run_managed_until_call asm fn (fuel + 1) frame =
        run_managed_until_call asm fn fuel
          { frame with program_counter := frame.program_counter + 1 }) := by
  constructor
  · intro fn frame h
    rw [List.get?_eq_getElem?] at h
    simp [step_managed, h, advance1]
  · intro asm fn fuel frame h
    have hs : step_managed fn frame =
        some ({ frame with program_counter := frame.program_counter + 1 },
          ExecutionStatus.breakpoint) := by
      rw [List.get?_eq_getElem?] at h
      simp [step_managed, h, advance1]
    rw [run_managed_until_call, hs]

/-- Witness for C9 at a concrete frame: the breakpoint step advances the
counter from 0 to 1 keeping stack `[7]` and locals `[3]`, and the run
loop resumes from the advanced frame. -/
theorem c9_witness :
    step_managed ⟨"f", 0, false, [], [Inst.breakpoint, Inst.ret]⟩ ⟨0, [7], [3]⟩ =
      some (⟨1, [7], [3]⟩, ExecutionStatus.breakpoint) ∧
    run_managed_until_call ⟨0, "a", []⟩ ⟨"f", 0, false, [], [Inst.breakpoint, Inst.ret]⟩ 3
        ⟨0, [7], [3]⟩ =
      run_managed_until_call ⟨0, "a", []⟩ ⟨"f", 0, false, [], [Inst.breakpoint, Inst.ret]⟩ 2
        ⟨1, [7], [3]⟩ :=
  ⟨c9_breakpoint_transparent.1 ⟨"f", 0, false, [], [Inst.breakpoint, Inst.ret]⟩ ⟨0, [7], [3]⟩ rfl,
   c9_breakpoint_transparent.2 ⟨0, "a", []⟩ ⟨"f", 0, false, [], [Inst.breakpoint, Inst.ret]⟩ 2
     ⟨0, [7], [3]⟩ rfl⟩

/-- C10: execution of a program begins with a single managed frame for
the entry function — locals a clone of its `defaultLocals`, program
counter 0, empty operand stack — and is defined only when the entry
function is `Managed`: a `Native` entry makes
`get_entry().as_managed().unwrap()` panic immediately, before any
instruction executes (the fault occurs even with zero fuel). -/
theorem c10_entry_must_be_managed (asm : Assembly) :
    (∀ m : ManagedFuncDef, asm.functions.get? asm.entry = some (FuncDef.managed m) →
      ∀ (rnd : Nat → Nat) (fuel : Nat),
        execute_assembly asm rnd fuel =
          execute_loop asm rnd fuel 0 [CallFrame.managed m ⟨0, [], m.default_locals⟩])
    ∧
    (∀ nd : NativeFuncDef, asm.functions.get? asm.entry = some (FuncDef.native nd) →
      ∀ (rnd : Nat → Nat) (fuel : Nat), execute_assembly asm rnd fuel = Outcome.fault) := by
  constructor
  · intro m hm rnd fuel
    rw [List.get?_eq_getElem?] at hm
    simp [execute_assembly, Assembly.get_entry?, hm, FuncDef.as_managed,
      ManagedCallFrame.by_func]
  · intro nd hn rnd fuel
    rw [List.get?_eq_getElem?] at hn
    simp [execute_assembly, Assembly.get_entry?, hn, FuncDef.as_managed]

/-- Witness for C10: a program whose entry is the native `random`
function faults with zero fuel (before any step); a managed entry starts
the loop with the described initial frame. -/
theorem c10_witness :
    execute_assembly ⟨0, "n", [FuncDef.native ⟨"random", 0, true⟩]⟩ (fun _ => 0) 0 =
      Outcome.fault ∧
    execute_assembly ⟨0, "m", [FuncDef.managed ⟨"main", 0, false, [5], [Inst.ret]⟩]⟩
        (fun _ => 0) 9 =
      execute_loop ⟨0, "m", [FuncDef.managed ⟨"main", 0, false, [5], [Inst.ret]⟩]⟩
        (fun _ => 0) 9 0
        [CallFrame.managed ⟨"main", 0, false, [5], [Inst.ret]⟩ ⟨0, [], [5]⟩] :=
  ⟨(c10_entry_must_be_managed ⟨0, "n", [FuncDef.native ⟨"random", 0, true⟩]⟩).2
      ⟨"random", 0, true⟩ rfl (fun _ => 0) 0,
   (c10_entry_must_be_managed ⟨0, "m", [FuncDef.managed ⟨"main", 0, false, [5], [Inst.ret]⟩]⟩).1
      ⟨"main", 0, false, [5], [Inst.ret]⟩ rfl (fun _ => 0) 9⟩

/-- Evaluation of `binary_s` when both operands fit in an i32, the
operator succeeds, and the result is nonnegative. -/
theorem binary_s_eval (f : Int → Int → Option Int) (pc : Nat) (loc : List Nat)
    (v1 v2 : Nat) (rest : List Nat) (r : Int)
    (h2 : v2 ≤ 2147483647) (h1 : v1 ≤ 2147483647)
    (hf : f (Int.ofNat v2) (Int.ofNat v1) = some r) (hr : 0 ≤ r) :
    binary_s f ⟨pc, v2 :: v1 :: rest, loc⟩ = some ⟨pc, r.toNat :: rest, loc⟩ := by
  simp only [binary_s, i32_from_u32, if_pos h2, if_pos h1, hf, i32_to_u32, if_pos hr]

/-- C1 counterexample: with `a = 2` pushed first and `b = 8` pushed
second (stack top), the claim predicts `div.u` pushes
`secondPopped / firstPopped = a / b = 2 / 8 = 0`; the code pops
`value2 = 8` first, `value1 = 2` second and computes
`operator(value2, value1) = 8 / 2 = 4`. -/
theorem c1_counterexample_operand_order :
    step_managed ⟨"f", 0, false, [], [Inst.div_u]⟩ ⟨0, [8, 2], []⟩ =
      some (⟨1, [4], []⟩, ExecutionStatus.normal) ∧
    step_managed ⟨"f", 0, false, [], [Inst.div_u]⟩ ⟨0, [8, 2], []⟩ ≠
      some (⟨1, [2 / 8], []⟩, ExecutionStatus.normal) := by
  decide

/-- C1 amended: for every binary operation the operands are popped as
`v2` (top of stack, popped first) then `v1`, and the value pushed is
`firstPopped <op> secondPopped`, i.e. `v2 <op> v1` — the first-popped
(last-pushed) operand is the left-hand side, so for `a` pushed first and
`b` pushed second, `sub` pushes `b - a`.  Stated for each of the eight
opcodes on a stack `v2 :: v1 :: rest` under the side conditions (no
overflow, no division by zero, signed operands and result representable)
under which the operation completes without fault. -/
theorem c1_amended_operand_order :
    ∀ (fn : ManagedFuncDef) (pc : Nat) (loc : List Nat) (v1 v2 : Nat) (rest : List Nat),
    ((fn.body.get? pc = some Inst.add_u → v2 + v1 ≤ U32_MAX →
      step_managed fn ⟨pc, v2 :: v1 :: rest, loc⟩ =
        some (⟨pc + 1, (v2 + v1) :: rest, loc⟩, ExecutionStatus.normal))
    ∧ (fn.body.get? pc = some Inst.sub_u → v1 ≤ v2 →
      step_managed fn ⟨pc, v2 :: v1 :: rest, loc⟩ =
        some (⟨pc + 1, (v2 - v1) :: rest, loc⟩, ExecutionStatus.normal))
    ∧ (fn.body.get? pc = some Inst.mul_u → v2 * v1 ≤ U32_MAX →
      step_managed fn ⟨pc, v2 :: v1 :: rest, loc⟩ =
        some (⟨pc + 1, (v2 * v1) :: rest, loc⟩, ExecutionStatus.normal))
    ∧ (fn.body.get? pc = some Inst.div_u → v1 ≠ 0 →
      step_managed fn ⟨pc, v2 :: v1 :: rest, loc⟩ =
        some (⟨pc + 1, (v2 / v1) :: rest, loc⟩, ExecutionStatus.normal))
    ∧ (fn.body.get? pc = some Inst.add_s → v2 + v1 ≤ 2147483647 →
      step_managed fn ⟨pc, v2 :: v1 :: rest, loc⟩ =
        some (⟨pc + 1, (v2 + v1) :: rest, loc⟩, ExecutionStatus.normal))
    ∧ (fn.body.get? pc = some Inst.sub_s → v1 ≤ v2 → v2 ≤ 2147483647 →
      step_managed fn ⟨pc, v2 :: v1 :: rest, loc⟩ =
        some (⟨pc + 1, (v2 - v1) :: rest, loc⟩, ExecutionStatus.normal))
    ∧ (fn.body.get? pc = some Inst.mul_s →
        v2 ≤ 2147483647 → v1 ≤ 2147483647 → v2 * v1 ≤ 2147483647 →
      step_managed fn ⟨pc, v2 :: v1 :: rest, loc⟩ =
        some (⟨pc + 1, (v2 * v1) :: rest, loc⟩, ExecutionStatus.normal))
    ∧ (fn.body.get? pc = some Inst.div_s → v1 ≠ 0 →
        v2 ≤ 2147483647 → v1 ≤ 2147483647 →
      step_managed fn ⟨pc, v2 :: v1 :: rest, loc⟩ =
        some (⟨pc + 1, (v2 / v1) :: rest, loc⟩, ExecutionStatus.normal))) := by
  intro fn pc loc v1 v2 rest
  refine ⟨?_, ?_, ?_, ?_, ?_, ?_, ?_, ?_⟩
  · intro h hc
    rw [List.get?_eq_getElem?] at h
    simp [step_managed, h, binary_u, add_u32, advance1, hc]
  · intro h hc
    rw [List.get?_eq_getElem?] at h
    simp [step_managed, h, binary_u, sub_u32, advance1, hc]
  · intro h hc
    rw [List.get?_eq_getElem?] at h
    simp [step_managed, h, binary_u, mul_u32, advance1, hc]
  · intro h hc
    rw [List.get?_eq_getElem?] at h
    simp [step_managed, h, binary_u, div_u32, advance1, hc]
  · intro h hc
    have hf : add_i32 (Int.ofNat v2) (Int.ofNat v1) = some (Int.ofNat (v2 + v1)) := by
      unfold add_i32 i32_checked I32_MIN I32_MAX
      rw [if_pos (by simp only [Int.ofNat_eq_coe]; omega)]
      simp only [Int.ofNat_eq_coe]
      norm_cast
    have hb := binary_s_eval add_i32 pc loc v1 v2 rest (Int.ofNat (v2 + v1))
      (by omega) (by omega) hf (by simp only [Int.ofNat_eq_coe]; omega)
    simp only [step_managed, h, hb, Option.map_some']
    rfl
  · intro h hc1 hc2
    have hf : sub_i32 (Int.ofNat v2) (Int.ofNat v1) = some (Int.ofNat (v2 - v1)) := by
      unfold sub_i32 i32_checked I32_MIN I32_MAX
      rw [if_pos (by simp only [Int.ofNat_eq_coe]; omega)]
      congr 1
      simp only [Int.ofNat_eq_coe]
      omega
    have hb := binary_s_eval sub_i32 pc loc v1 v2 rest (Int.ofNat (v2 - v1))
      hc2 (by omega) hf (by simp only [Int.ofNat_eq_coe]; omega)
    simp only [step_managed, h, hb, Option.map_some']
    rfl
  · intro h hc1 hc2 hc3
    have hf : mul_i32 (Int.ofNat v2) (Int.ofNat v1) = some (Int.ofNat (v2 * v1)) := by
      unfold mul_i32 i32_checked I32_MIN I32_MAX
      rw [show Int.ofNat v2 * Int.ofNat v1 = Int.ofNat (v2 * v1) from rfl]
      rw [if_pos (by simp only [Int.ofNat_eq_coe]; omega)]
    have hb := binary_s_eval mul_i32 pc loc v1 v2 rest (Int.ofNat (v2 * v1))
      hc1 hc2 hf (by simp only [Int.ofNat_eq_coe]; omega)
    simp only [step_managed, h, hb, Option.map_some']
    rfl
  · intro h hz hc1 hc2
    have hdle : v2 / v1 ≤ v2 := Nat.div_le_self v2 v1
    have hf : div_i32 (Int.ofNat v2) (Int.ofNat v1) = some (Int.ofNat (v2 / v1)) := by
      unfold div_i32 i32_checked I32_MIN I32_MAX
      rw [if_neg (by simp only [Int.ofNat_eq_coe]; omega)]
      rw [show Int.tdiv (Int.ofNat v2) (Int.ofNat v1) = Int.ofNat (v2 / v1) from rfl]
      rw [if_pos ⟨le_trans (by norm_num) (Int.ofNat_nonneg _),
        le_trans (Int.ofNat_le.mpr hdle) (by exact_mod_cast hc1)⟩]
    have hb := binary_s_eval div_i32 pc loc v1 v2 rest (Int.ofNat (v2 / v1))
      hc1 hc2 hf (Int.ofNat_nonneg _)
    simp only [step_managed, h, hb, Option.map_some']
    rfl

/-- Witness for C1's amended theorem: `sub.u` on `4` pushed first and
`9` pushed second yields `9 - 4 = 5`, and `div.s` on `3` pushed first
and `12` pushed second yields `12 / 3 = 4`. -/
theorem c1_witness :
    step_managed ⟨"f", 0, false, [], [Inst.sub_u]⟩ ⟨0, [9, 4, 11], [2]⟩ =
      some (⟨1, [5, 11], [2]⟩, ExecutionStatus.normal) ∧
    step_managed ⟨"g", 0, false, [], [Inst.div_s]⟩ ⟨0, [12, 3], []⟩ =
      some (⟨1, [4], []⟩, ExecutionStatus.normal) :=
  ⟨(c1_amended_operand_order ⟨"f", 0, false, [], [Inst.sub_u]⟩ 0 [2] 4 9 [11]).2.1
      rfl (by decide),
   (c1_amended_operand_order ⟨"g", 0, false, [], [Inst.div_s]⟩ 0 [] 3 12 []).2.2.2.2.2.2.2
      rfl (by decide) (by decide) (by decide)⟩

/-- C6: calling a managed function builds the callee frame from a clone
of the callee's `defaultLocals` and pops one caller-stack value per
argument slot in increasing slot order, so slot `i` receives the `i`-th
value from the top of the caller's stack; in particular, after pushing
`a` then `b` and calling a 2-argument function, `locals[0] = b` (the
last-pushed, top value) and `locals[1] = a`.  Slots beyond the arguments
keep their default values, the callee starts at program counter 0 with
an empty operand stack, and the caller loses exactly `args` stack
values. -/
theorem c6_argument_order :
    ∀ (callee : ManagedFuncDef) (caller : ManagedCallFrame),
    callee.args ≤ callee.default_locals.length →
    callee.args ≤ caller.stack.length →
    ∃ cf caller1,
      create_frame_for_callee caller callee = some (cf, caller1) ∧
      cf.program_counter = 0 ∧ cf.stack = [] ∧
      cf.locals.length = callee.default_locals.length ∧
      (∀ i, i < callee.args → cf.locals.get? i = caller.stack.get? i) ∧
      (∀ i, callee.args ≤ i → cf.locals.get? i = callee.default_locals.get? i) ∧
      caller1.stack = caller.stack.drop callee.args ∧
      caller1.locals = caller.locals ∧
      caller1.program_counter = caller.program_counter ∧
      (∀ a b rest, callee.args = 2 → caller.stack = b :: a :: rest →
        cf.locals.get? 0 = some b ∧ cf.locals.get? 1 = some a) := by
  intro callee caller hargs hstk
  obtain ⟨locals1, heq, hlen, -, hmid, hge⟩ :=
    popArgsLoop_spec callee.args 0 callee.default_locals caller.stack
      (by omega) hstk
  refine ⟨⟨0, [], locals1⟩, { caller with stack := caller.stack.drop callee.args },
    ?_, rfl, rfl, hlen, ?_, ?_, rfl, rfl, rfl, ?_⟩
  · unfold create_frame_for_callee
    rw [heq]
  · intro i hi
    have := hmid i hi
    rwa [Nat.zero_add] at this
  · intro i hi
    exact hge i (by omega)
  · intro a b rest h2 hsteq
    constructor
    · have := hmid 0 (by omega)
      rw [Nat.add_zero] at this
      rw [this, hsteq]
      rfl
    · have := hmid 1 (by omega)
      rw [show (0 : Nat) + 1 = 1 from rfl] at this
      rw [this, hsteq]
      rfl

/-- Witness for C6: calling a 2-argument function whose defaults are
`[0, 0, 9]` with caller stack `[20, 10, 99]` (20 on top, pushed last)
binds `locals[0] = 20`, `locals[1] = 10`, keeps the general local `9`,
and leaves `[99]` on the caller's stack. -/
theorem c6_witness :
    ∃ cf caller1,
      create_frame_for_callee ⟨3, [20, 10, 99], [1]⟩ ⟨"g", 2, false, [0, 0, 9], []⟩ =
        some (cf, caller1) ∧
      cf.program_counter = 0 ∧ cf.stack = [] ∧
      cf.locals.length = (⟨"g", 2, false, [0, 0, 9], []⟩ : ManagedFuncDef).default_locals.length ∧
      (∀ i, i < 2 → cf.locals.get? i = ([20, 10, 99] : List Nat).get? i) ∧
      (∀ i, 2 ≤ i → cf.locals.get? i = ([0, 0, 9] : List Nat).get? i) ∧
      caller1.stack = ([20, 10, 99] : List Nat).drop 2 ∧
      caller1.locals = [1] ∧ caller1.program_counter = 3 ∧
      (∀ a b rest, (2 : Nat) = 2 → ([20, 10, 99] : List Nat) = b :: a :: rest →
        cf.locals.get? 0 = some b ∧ cf.locals.get? 1 = some a) :=
  c6_argument_order ⟨"g", 2, false, [0, 0, 9], []⟩ ⟨3, [20, 10, 99], [1]⟩
    (by decide) (by decide)

/-- C7: every return path from a managed frame.  A program counter at or
past the body length yields an implicit `Return` with the frame
untouched; an explicit `ret` advances the counter and yields `Return`;
`finish_managed_call` pops the frame and, when the callee returns a
value, reads it from the designated slot `locals[argCount]` and pushes
it onto the caller's operand stack when a caller frame remains (with an
empty call stack there is nothing to push and nothing fails); and the
executor's loop terminates successfully — `Outcome.ok` — as soon as the
call stack is empty. -/
theorem c7_return_handling :
    (∀ (fn : ManagedFuncDef) (frame : ManagedCallFrame),
      fn.body.length ≤ frame.program_counter →
      step_managed fn frame = some (frame, ExecutionStatus.ret))
    ∧ (∀ (fn : ManagedFuncDef) (frame : ManagedCallFrame),
      fn.body.get? frame.program_counter = some Inst.ret →
      step_managed fn frame =
        some ({ frame with program_counter := frame.program_counter + 1 },
          ExecutionStatus.ret))
    ∧ (∀ (callee : ManagedFuncDef) (cf : ManagedCallFrame) (r : Nat),
      callee.returns = true → cf.locals.get? callee.args = some r →
      finish_managed_call [] callee cf = some [] ∧
      ∀ (cfd : ManagedFuncDef) (cfr : ManagedCallFrame) (rest : List CallFrame),
        finish_managed_call (CallFrame.managed cfd cfr :: rest) callee cf =
          some (CallFrame.managed cfd { cfr with stack := r :: cfr.stack } :: rest))
    ∧ (∀ (callee : ManagedFuncDef) (cf : ManagedCallFrame) (stk : List CallFrame),
      callee.returns = false → finish_managed_call stk callee cf = some stk)
    ∧ (∀ (asm : Assembly) (rnd : Nat → Nat) (fuel rix : Nat),
      execute_loop asm rnd fuel rix [] = Outcome.ok ()) := by
  refine ⟨?_, ?_, ?_, ?_, ?_⟩
  · intro fn frame h
    have hnone : fn.body.get? frame.program_counter = none := List.get?_eq_none.mpr h
    rw [List.get?_eq_getElem?] at hnone
    simp [step_managed, hnone]
  · intro fn frame h
    rw [List.get?_eq_getElem?] at h
    simp [step_managed, h, advance1]
  · intro callee cf r hret hloc
    rw [List.get?_eq_getElem?] at hloc
    constructor
    · simp [finish_managed_call, hret, hloc]
    · intro cfd cfr rest
      simp [finish_managed_call, hret, hloc]
  · intro callee cf stk hret
    simp [finish_managed_call, hret]
  · intro asm rnd fuel rix
    cases fuel <;> rfl

/-- Witness for C7 at concrete inputs: implicit return on an empty body,
explicit `ret`, return-value push into a waiting caller, the
no-return-value path, and loop termination on an empty call stack. -/
theorem c7_witness :
    step_managed ⟨"f", 0, false, [], []⟩ ⟨0, [], []⟩ =
      some (⟨0, [], []⟩, ExecutionStatus.ret) ∧
    step_managed ⟨"f", 0, false, [], [Inst.ret]⟩ ⟨0, [6], []⟩ =
      some (⟨1, [6], []⟩, ExecutionStatus.ret) ∧
    finish_managed_call [CallFrame.managed ⟨"m", 0, false, [], []⟩ ⟨2, [1], []⟩]
        ⟨"g", 1, true, [], []⟩ ⟨5, [], [3, 7]⟩ =
      some [CallFrame.managed ⟨"m", 0, false, [], []⟩ ⟨2, [7, 1], []⟩] ∧
    finish_managed_call [] ⟨"g", 1, true, [], []⟩ ⟨5, [], [3, 7]⟩ = some [] ∧
    execute_loop ⟨0, "a", []⟩ (fun _ => 0) 4 0 [] = Outcome.ok () :=
  ⟨c7_return_handling.1 ⟨"f", 0, false, [], []⟩ ⟨0, [], []⟩ (by decide),
   c7_return_handling.2.1 ⟨"f", 0, false, [], [Inst.ret]⟩ ⟨0, [6], []⟩ rfl,
   (c7_return_handling.2.2.1 ⟨"g", 1, true, [], []⟩ ⟨5, [], [3, 7]⟩ 7 rfl rfl).2
     ⟨"m", 0, false, [], []⟩ ⟨2, [1], []⟩ [],
   (c7_return_handling.2.2.1 ⟨"g", 1, true, [], []⟩ ⟨5, [], [3, 7]⟩ 7 rfl rfl).1,
   c7_return_handling.2.2.2.2 ⟨0, "a", []⟩ (fun _ => 0) 4 0⟩

/-- C4: resolution of `call` placeholders.  (1) Whenever the resolver
maps a placeholder to a table index, that index holds a function whose
name equals the recorded global callee name.  (2) When every `call`
placeholder in every body resolves, `fill_call_placeholders` succeeds
and rewrites each body pointwise — `call i` becomes `call j` for the
resolved index `j`, every other instruction is untouched, and names,
signatures and locals are preserved; the resolver searches the whole
finished table, so a callee defined later in the source (a forward
reference) resolves the same way.  (3) When some `call` placeholder's
name matches no function, resolution fails (the `expect("no such func")`
panic) and no program is produced. -/
theorem c4_call_resolution (fns : List ManagedFuncDef) (names : List String) :
    (∀ i j, get_real_func_index fns names i = some j →
      ∃ nm g, names.get? i = some nm ∧ fns.get? j = some g ∧ g.name = nm)
    ∧
    ((∀ f ∈ fns, ∀ inst ∈ f.body, (resolve_call_inst fns names inst).isSome) →
      ∃ out, fill_call_placeholders fns names = some out ∧
        out.length = fns.length ∧
        ∀ k f, fns.get? k = some f →
          ∃ g, out.get? k = some g ∧ g.name = f.name ∧ g.args = f.args ∧
            g.returns = f.returns ∧ g.default_locals = f.default_locals ∧
            ∀ m, g.body.get? m = (f.body.get? m).bind (resolve_call_inst fns names))
    ∧
    ((∃ f ∈ fns, ∃ inst ∈ f.body, resolve_call_inst fns names inst = none) →
      fill_call_placeholders fns names = none) := by
  refine ⟨?_, ?_, ?_⟩
  · intro i j h
    unfold get_real_func_index at h
    cases hnm : names.get? i with
    | none => rw [hnm] at h; simp at h
    | some nm =>
      rw [hnm] at h
      simp only [] at h
      obtain ⟨g, hg, hpg⟩ := position_spec _ fns j h
      exact ⟨nm, g, rfl, hg, eq_of_beq hpg⟩
  · intro hres
    have hF : ∀ f ∈ fns,
        ((optionMapList (resolve_call_inst fns names) f.body).map
          (fun b => { f with body := b })).isSome := by
      intro f hf
      obtain ⟨b, hb⟩ := optionMapList_isSome _ f.body (fun inst hi => hres f hf inst hi)
      rw [hb]
      rfl
    obtain ⟨out, hout⟩ := optionMapList_isSome _ fns hF
    refine ⟨out, hout, optionMapList_length _ fns out hout, ?_⟩
    intro k f hk
    have hpt := optionMapList_get? _ fns out hout k
    rw [hk] at hpt
    obtain ⟨b, hb⟩ := optionMapList_isSome _ f.body
      (fun inst hi => hres f (List.get?_mem hk) inst hi)
    simp only [Option.some_bind, hb, Option.map_some'] at hpt
    refine ⟨{ f with body := b }, hpt, rfl, rfl, rfl, rfl, ?_⟩
    intro m
    exact optionMapList_get? _ f.body b hb m
  · rintro ⟨f, hf, inst, hi, hnone⟩
    apply optionMapList_none _ fns f hf
    have hinner := optionMapList_none _ f.body inst hi hnone
    rw [hinner]
    rfl

/-- A two-function program whose first function calls the second: the
caller appears before its callee in the table, exercising a forward
reference. -/
def fwd_fns : List ManagedFuncDef :=
  [⟨"main", 0, false, [], [Inst.call 0]⟩, ⟨"helper", 0, false, [], [Inst.ret]⟩]

/-- The global called-names list recorded while loading `fwd_fns`. -/
def fwd_names : List String := ["helper"]

/-- Witness for C4: the forward call from `main` (table index 0) to
`helper` (table index 1, defined later in the source) resolves and the
program loads. -/
theorem c4_witness :
    ∃ out, fill_call_placeholders fwd_fns fwd_names = some out ∧
      out.length = fwd_fns.length ∧
      ∀ k f, fwd_fns.get? k = some f →
        ∃ g, out.get? k = some g ∧ g.name = f.name ∧ g.args = f.args ∧
          g.returns = f.returns ∧ g.default_locals = f.default_locals ∧
          ∀ m, g.body.get? m = (f.body.get? m).bind (resolve_call_inst fwd_fns fwd_names) :=
  (c4_call_resolution fwd_fns fwd_names).2.1 (by decide)

/-- C8: the locals-sizing invariant.  (1) Every function of a
successfully loaded program satisfies
`argCount + (returnsValue ? 1 : 0) ≤ defaultLocals.length`.
(2) Finalization (`save_func`) grows a too-small `defaultLocals` to that
minimum, keeping every slot the directives populated and zero-filling
the added slots — regardless of what `.locals`/`.local` specified.
(3) A `.locals n` directive resets the current function's defaults to
`n` zero slots, so every slot not later touched by `.local` holds zero.
(4) A `.local i v` directive sets exactly slot `i` to `v` and leaves
every other slot unchanged. -/
theorem c8_locals_sizing :
    (∀ (lines : List String) (prog : List ManagedFuncDef),
      load_program lines = some prog →
      ∀ g ∈ prog, locals_min g ≤ g.default_locals.length)
    ∧ (∀ (ld : Loader) (f : ManagedFuncDef) (ld1 : Loader),
      ld.current_func = some f → save_func ld = some ld1 →
      ∃ g, ld1.functions = ld.functions ++ [g] ∧
        locals_min g ≤ g.default_locals.length ∧
        (∀ k, k < f.default_locals.length →
          g.default_locals.get? k = f.default_locals.get? k) ∧
        (∀ k, f.default_locals.length ≤ k → k < g.default_locals.length →
          g.default_locals.get? k = some 0))
    ∧ (∀ (ld : Loader) (f : ManagedFuncDef) (line cstr : String) (n : Nat),
      ld.current_func = some f →
      line_parts line = ["locals", cstr] →
      parse_usize cstr = some n →
      process_meta ld line =
        some { ld with current_func := some { f with default_locals := List.replicate n 0 } } ∧
      ∀ k, k < n → (List.replicate n (0 : Nat)).get? k = some 0)
    ∧ (∀ (ld : Loader) (f : ManagedFuncDef) (line istr vstr : String) (i v : Nat),
      ld.current_func = some f →
      line_parts line = ["local", istr, vstr] →
      parse_u16 istr = some i → parse_u32 vstr = some v →
      i < f.default_locals.length →
      process_meta ld line =
        some { ld with current_func := some { f with default_locals := f.default_locals.set i v } } ∧
      (f.default_locals.set i v).get? i = some v ∧
      ∀ k, k ≠ i → (f.default_locals.set i v).get? k = f.default_locals.get? k) := by
  refine ⟨?_, ?_, ?_, ?_⟩
  · intro lines prog h
    unfold load_program at h
    cases hl : load_lines Loader.new lines with
    | none => rw [hl] at h; simp at h
    | some ld =>
      simp only [hl] at h
      cases hsf : save_func ld with
      | none => rw [hsf] at h; simp at h
      | some ld1 =>
        simp only [hsf] at h
        have hi0 : inv_all Loader.new.functions := by
          intro g hg
          simp [Loader.new] at hg
        have hi1 := load_lines_inv lines Loader.new ld hl hi0
        have hi2 := save_func_inv ld ld1 hsf hi1
        intro g hg
        obtain ⟨f, hf, hn, ha, hr, hd⟩ :=
          fill_call_mem ld1.functions ld1.called_names prog h g hg
        have hfi := hi2 f hf
        unfold locals_min at hfi ⊢
        rw [ha, hr, hd]
        exact hfi
  · intro ld f ld1 hc hs
    obtain ⟨g, hfns, -, -, -, hinv, -, hkeep, hzero, -, -, -⟩ :=
      save_func_spec ld f ld1 hc hs
    exact ⟨g, hfns, hinv, hkeep, hzero⟩
  · intro ld f line cstr n hc hlp hn
    constructor
    · simp [process_meta, hlp, hc, hn]
    · intro k hk
      simp [List.get?_eq_getElem?, List.getElem?_replicate, hk]
  · intro ld f line istr vstr i v hc hlp hi16 hv hlt
    refine ⟨?_, ?_, ?_⟩
    · simp [process_meta, hlp, hc, hi16, hv, hlt]
    · simp [List.get?_set_eq, hlt]
    · intro k hk
      rw [List.get?_set_ne _ _ (Ne.symm hk)]

/-- Witness for C8: loading `.func main 2 true` (two arguments, returns
a value, no locals directives) produces default locals grown to three
zero slots; `save_func` on an in-progress one-argument returning
function with empty defaults appends it with defaults `[0, 0]`. -/
theorem c8_witness :
    (∀ g ∈ [(⟨"main", 2, true, [0, 0, 0], []⟩ : ManagedFuncDef)],
      locals_min g ≤ g.default_locals.length) ∧
    (∃ g, (⟨[⟨"f", 1, true, [0, 0], []⟩], [], [], [], none, []⟩ : Loader).functions =
        ([] : List ManagedFuncDef) ++ [g] ∧
      locals_min g ≤ g.default_locals.length ∧
      (∀ k, k < ([] : List Nat).length →
        g.default_locals.get? k = ([] : List Nat).get? k) ∧
      (∀ k, ([] : List Nat).length ≤ k → k < g.default_locals.length →
        g.default_locals.get? k = some 0)) :=
  ⟨c8_locals_sizing.1 [".func main 2 true"] [⟨"main", 2, true, [0, 0, 0], []⟩] (by decide),
   c8_locals_sizing.2.1 ⟨[], [], [], [], some ⟨"f", 1, true, [], []⟩, []⟩
     ⟨"f", 1, true, [], []⟩ ⟨[⟨"f", 1, true, [0, 0], []⟩], [], [], [], none, []⟩
     rfl (by decide)⟩
